import Mathlib

/-!
A verification development for the common-subexpression-elimination (CSE)
optimizer of the ethminer / cpp-ethereum code base
(`libevmcore/CommonSubexpressionEliminator.h` and its companion units).

The repository ships the optimizer's header: the class layout and initial
field values of `CommonSubexpressionEliminator`, the declaration of
`SemanticInformation` and `CSECodeGenerator`, and the full template body of
`CommonSubexpressionEliminator::feedItems`.  The bodies of the remaining
member functions are declared in the header but their translation units are
not part of the source tree; those are modelled here from the specification
document, and each such definition is marked `Modelled from the spec:`.
-/

namespace CSE

/-- EVM-style instruction tags used by the optimizer.  `DUP i` and `SWAP i`
carry their depth argument (1..16 for well-formed streams). -/
inductive Inst : Type
  | STOP | ADD | MUL | SUB | DIV | EQ | AND | OR | XOR | NOT | LT | GT
  | POP | SLOAD | SSTORE | MLOAD | MSTORE
  | JUMP | JUMPI | JUMPDEST | RETURN | SUICIDE | INVALID
  | CALL | BALANCE
  | DUP (i : Nat) | SWAP (i : Nat)
deriving DecidableEq, Repr

/-- An assembly item as seen by the optimizer: a concrete opcode, a push of a
256-bit immediate, a jump destination tag, or a push of a tag. -/
inductive AssemblyItem : Type
  | Operation (inst : Inst)
  | Push (v : Nat)
  | Tag (l : Nat)
  | PushTag (l : Nat)
deriving DecidableEq, Repr

/-- Modelled from the spec: `SemanticInformation::breaksBasicBlock` (declared
in the header, body not in the tree).  True for `JUMP`, `JUMPI`, `STOP`,
`RETURN`, `SUICIDE`, `INVALID`, and any `JUMPDEST`/`Tag`. -/
def breaksBasicBlock : AssemblyItem → Bool
  | .Operation .JUMP => true
  | .Operation .JUMPI => true
  | .Operation .STOP => true
  | .Operation .RETURN => true
  | .Operation .SUICIDE => true
  | .Operation .INVALID => true
  | .Operation .JUMPDEST => true
  | .Tag _ => true
  | _ => false

/-- Modelled from the spec: `SemanticInformation::isCommutativeOperation`
(declared in the header, body not in the tree).  True for `ADD`, `MUL`,
`EQ`, `AND`, `OR`, `XOR`. -/
def isCommutativeOperation : AssemblyItem → Bool
  | .Operation .ADD => true
  | .Operation .MUL => true
  | .Operation .EQ => true
  | .Operation .AND => true
  | .Operation .OR => true
  | .Operation .XOR => true
  | _ => false

/-- The VM's word size modulus (256-bit modular arithmetic). -/
def wordModulus : Nat := 2 ^ 256

/-- The all-ones 256-bit word, `~0`. -/
def allOnesWord : Nat := wordModulus - 1

/-- An expression stored in `ExpressionClasses`: the representative assembly
item, the ordered operand class ids, and the sequence number the class is
stamped with (0 for pure classes). -/
structure Expression where
  item : AssemblyItem
  arguments : List Nat
  sequenceNumber : Nat
deriving DecidableEq, Repr

/-- Modelled from the spec: the `ExpressionClasses` container (declared via
`libevmcore/ExpressionClasses.h`, not in the tree).  Class ids are dense
indices into the list of representatives. -/
structure ExpressionClasses where
  representatives : List Expression
deriving DecidableEq, Repr

/-- The empty class store created at block start. -/
def ExpressionClasses.empty : ExpressionClasses := ⟨[]⟩

/-- If the class id denotes a `Push` constant, its value. -/
def isConstClass (ec : ExpressionClasses) (id : Nat) : Option Nat :=
  match ec.representatives.get? id with
  | some e =>
    match e.item, e.arguments with
    | AssemblyItem.Push v, [] => some v
    | _, _ => none
  | none => none

/-- True if the class id denotes a pure (sequence-number-0) class. -/
def isPureClass (ec : ExpressionClasses) (id : Nat) : Bool :=
  match ec.representatives.get? id with
  | some e => e.sequenceNumber == 0
  | none => false

/-- Insertion of an id into an ascending list of ids. -/
def insertSorted (x : Nat) : List Nat → List Nat
  | [] => [x]
  | y :: ys => if x ≤ y then x :: y :: ys else y :: insertSorted x ys

/-- Ascending insertion sort on operand id lists. -/
def sortIds (l : List Nat) : List Nat := l.foldr insertSorted []

/-- Commutative normalization: operands of commutative operations are sorted
ascending by class id. -/
def normalizeArgs (item : AssemblyItem) (args : List Nat) : List Nat :=
  if isCommutativeOperation item then sortIds args else args

/-- Outcome of algebraic simplification: reuse an existing class id, fold to
a constant, or keep the expression as is. -/
inductive SimplifyResult : Type
  | reuse (id : Nat)
  | const (v : Nat)
  | keep
deriving DecidableEq, Repr

/-- 256-bit modular evaluation of a binary instruction on constants. -/
def evalBinary (inst : Inst) (x y : Nat) : Nat :=
  match inst with
  | .ADD => (x + y) % wordModulus
  | .MUL => (x * y) % wordModulus
  | .SUB => (x + (wordModulus - y % wordModulus)) % wordModulus
  | .DIV => if y = 0 then 0 else x / y
  | .EQ => if x = y then 1 else 0
  | .AND => Nat.land x y
  | .OR => Nat.lor x y
  | .XOR => Nat.xor x y
  | .LT => if x < y then 1 else 0
  | .GT => if y < x then 1 else 0
  | _ => 0

/-- Modelled from the spec: the algebraic rewriting applied by
`ExpressionClasses` at class-construction time, for a binary operation.
`ca`/`cb` are the constant values of the operands (when they are `Push`
classes) and `pa` says whether the first operand is a pure class; the result
does not otherwise depend on the class store.  Rules: identity (`x+0→x`,
`x*1→x`, `x&~0→x`, `x|0→x`, `x^0→x`), zero (`x*0→0`, `x&0→0`), self
(`x-x→0`, `x^x→0`, `x&x→x`, `x|x→x`, `EQ(x,x)→1` for pure `x`), and
constant folding in 256-bit modular arithmetic. -/
def simplifyBinary (inst : Inst) (a b : Nat) (ca cb : Option Nat) (pa : Bool) :
    SimplifyResult :=
  let fold : SimplifyResult :=
    match ca, cb with
    | some x, some y => .const (evalBinary inst x y)
    | _, _ => .keep
  match inst with
  | .ADD =>
    if ca = some 0 then .reuse b
    else if cb = some 0 then .reuse a
    else fold
  | .MUL =>
    if ca = some 1 then .reuse b
    else if cb = some 1 then .reuse a
    else if ca = some 0 ∨ cb = some 0 then .const 0
    else fold
  | .AND =>
    if ca = some allOnesWord then .reuse b
    else if cb = some allOnesWord then .reuse a
    else if ca = some 0 ∨ cb = some 0 then .const 0
    else if a = b then .reuse a
    else fold
  | .OR =>
    if ca = some 0 then .reuse b
    else if cb = some 0 then .reuse a
    else if a = b then .reuse a
    else fold
  | .XOR =>
    if ca = some 0 then .reuse b
    else if cb = some 0 then .reuse a
    else if a = b then .const 0
    else fold
  | .SUB =>
    if a = b then .const 0
    else fold
  | .EQ =>
    if a = b ∧ pa then .const 1
    else fold
  | .DIV => fold
  | .LT => fold
  | .GT => fold
  | _ => .keep

/-- Modelled from the spec: the algebraic rewriting step of
`ExpressionClasses::find` (body not in the tree).  It only inspects the
class store through the constant values and purity of the operands. -/
def simplify (ec : ExpressionClasses) (item : AssemblyItem) (args : List Nat) :
    SimplifyResult :=
  match item, args with
  | AssemblyItem.Operation inst, [a, b] =>
    simplifyBinary inst a b (isConstClass ec a) (isConstClass ec b) (isPureClass ec a)
  | _, _ => .keep

/-- Index of the first occurrence of an expression in the representative
list, if present. -/
def findExpr : List Expression → Expression → Option Nat
  | [], _ => none
  | e :: rest, t => if e = t then some 0 else (findExpr rest t).map (· + 1)

/-- Hash-cons lookup: return the id of the expression if stored, otherwise
allocate a fresh id at the end of the store. -/
def findOrCreateTuple (ec : ExpressionClasses) (e : Expression) :
    Nat × ExpressionClasses :=
  match findExpr ec.representatives e with
  | some i => (i, ec)
  | none => (ec.representatives.length, ⟨ec.representatives ++ [e]⟩)

/-- The normal form of an invocation: the simplification outcome together
with the commutatively normalized operand list. -/
def normalForm (ec : ExpressionClasses) (item : AssemblyItem) (args : List Nat) :
    SimplifyResult × List Nat :=
  let nargs := normalizeArgs item args
  (simplify ec item nargs, nargs)

/-- Modelled from the spec: `ExpressionClasses::find` / `find_or_create`
(body not in the tree).  Sort operands of commutative operations, apply the
algebraic simplifications, then look the tuple up in the store, allocating a
fresh class when absent.  `seq` is 0 for pure operations and the stamping
sequence number for sequenced classes (loads, opaque impure results). -/
def findOrCreate (ec : ExpressionClasses) (item : AssemblyItem)
    (args : List Nat) (seq : Nat) : Nat × ExpressionClasses :=
  let nargs := normalizeArgs item args
  match simplify ec item nargs with
  | .reuse id => (id, ec)
  | .const v => findOrCreateTuple ec ⟨AssemblyItem.Push v, [], 0⟩
  | .keep => findOrCreateTuple ec ⟨item, nargs, seq⟩

/-- Association-list lookup with integer keys (stack heights). -/
def lookupA : List (Int × Nat) → Int → Option Nat
  | [], _ => none
  | (k, v) :: rest, h => if k = h then some v else lookupA rest h

/-- Association-list update/insert with integer keys. -/
def setA : List (Int × Nat) → Int → Nat → List (Int × Nat)
  | [], h, v => [(h, v)]
  | (k, w) :: rest, h, v => if k = h then (h, v) :: rest else (k, w) :: setA rest h v

/-- Association-list lookup with class-id keys (storage/memory slots). -/
def lookupN : List (Nat × Nat) → Nat → Option Nat
  | [], _ => none
  | (k, v) :: rest, h => if k = h then some v else lookupN rest h

/-- Association-list update/insert with class-id keys. -/
def setN : List (Nat × Nat) → Nat → Nat → List (Nat × Nat)
  | [], h, v => [(h, v)]
  | (k, w) :: rest, h, v => if k = h then (h, v) :: rest else (k, w) :: setN rest h v

/-- `CommonSubexpressionEliminator::StoreOperation` (defined in the header):
slot class id, stamping sequence number, stored value class id. -/
structure StoreOperation where
  slot : Nat
  sequenceNumber : Nat
  expression : Nat
deriving DecidableEq, Repr

/-- The state of `CommonSubexpressionEliminator` (fields and initial values
as declared in the header): current stack height (can be negative), the
stack layout mapping height to class id, the sequence number, knowledge
about storage and memory content, the store log and the class store.
`placeholderHeights` is a ghost log recording every stack height for which
`initialStackElement` manufactured a placeholder class. -/
structure EliminatorState where
  stackHeight : Int
  stackElements : List (Int × Nat)
  sequenceNumber : Nat
  storageContent : List (Nat × Nat)
  memoryContent : List (Nat × Nat)
  storeOperations : List StoreOperation
  expressionClasses : ExpressionClasses
  placeholderHeights : List Int
deriving Repr, DecidableEq

/-- The freshly constructed eliminator: `m_stackHeight = 0`,
`m_sequenceNumber = 1`, all containers empty (header initial values). -/
def initialState : EliminatorState :=
  { stackHeight := 0
    stackElements := []
    sequenceNumber := 1
    storageContent := []
    memoryContent := []
    storeOperations := []
    expressionClasses := ExpressionClasses.empty
    placeholderHeights := [] }

/-- Modelled from the spec:
`CommonSubexpressionEliminator::initialStackElement` (body not in the tree).
Manufactures the placeholder class for the initial stack element at the
given (non-positive) height, representing whatever the caller has there;
the representative item is the dup of depth `1 - height`. -/
def initialStackElement (s : EliminatorState) (h : Int) : Nat × EliminatorState :=
  let p := findOrCreate s.expressionClasses
    (AssemblyItem.Operation (Inst.DUP (1 - h).toNat)) [] 0
  (p.1,
    { s with
      expressionClasses := p.2
      placeholderHeights := s.placeholderHeights ++ [h] })

/-- Modelled from the spec: `CommonSubexpressionEliminator::stackElement`
(body not in the tree).  Returns the current class of the stack element at
the given height, creating an initial-stack placeholder on demand when the
height was never assigned. -/
def stackElement (s : EliminatorState) (h : Int) : Nat × EliminatorState :=
  match lookupA s.stackElements h with
  | some id => (id, s)
  | none =>
    let p := initialStackElement s h
    (p.1, { p.2 with stackElements := setA p.2.stackElements h p.1 })

/-- Modelled from the spec: `CommonSubexpressionEliminator::setStackElement`
(body not in the tree). -/
def setStackElement (s : EliminatorState) (h : Int) (c : Nat) : EliminatorState :=
  { s with stackElements := setA s.stackElements h c }

/-- Modelled from the spec:
`CommonSubexpressionEliminator::swapStackElements` (body not in the tree). -/
def swapStackElements (s : EliminatorState) (a b : Int) : EliminatorState :=
  let pa := stackElement s a
  let pb := stackElement pa.2 b
  setStackElement (setStackElement pb.2 a pb.1) b pa.1

/-- Modelled from the spec: `CommonSubexpressionEliminator::storeInStorage`
(body not in the tree).  Increments the sequence number, clears all storage
knowledge except the new binding, and appends the store to the log stamped
with the incremented sequence number. -/
def storeInStorage (s : EliminatorState) (slot value : Nat) : EliminatorState :=
  { s with
    sequenceNumber := s.sequenceNumber + 1
    storageContent := [(slot, value)]
    storeOperations := s.storeOperations ++
      [⟨slot, s.sequenceNumber + 1, value⟩] }

/-- Modelled from the spec: `CommonSubexpressionEliminator::loadFromStorage`
(body not in the tree).  Returns the known value of the slot or creates a
fresh sload class stamped with the current sequence number. -/
def loadFromStorage (s : EliminatorState) (slot : Nat) : Nat × EliminatorState :=
  match lookupN s.storageContent slot with
  | some v => (v, s)
  | none =>
    let p := findOrCreate s.expressionClasses
      (AssemblyItem.Operation Inst.SLOAD) [slot] s.sequenceNumber
    (p.1,
      { s with
        expressionClasses := p.2
        storageContent := setN s.storageContent slot p.1 })

/-- Modelled from the spec: the memory analogue of `storeInStorage`, with
the same aliasing policy and the shared store log. -/
def storeInMemory (s : EliminatorState) (slot value : Nat) : EliminatorState :=
  { s with
    sequenceNumber := s.sequenceNumber + 1
    memoryContent := [(slot, value)]
    storeOperations := s.storeOperations ++
      [⟨slot, s.sequenceNumber + 1, value⟩] }

/-- Modelled from the spec: the memory analogue of `loadFromStorage`. -/
def loadFromMemory (s : EliminatorState) (slot : Nat) : Nat × EliminatorState :=
  match lookupN s.memoryContent slot with
  | some v => (v, s)
  | none =>
    let p := findOrCreate s.expressionClasses
      (AssemblyItem.Operation Inst.MLOAD) [slot] s.sequenceNumber
    (p.1,
      { s with
        expressionClasses := p.2
        memoryContent := setN s.memoryContent slot p.1 })

/-- Reads `n` stack elements starting at height `h` going down, in
top-to-bottom order, creating placeholders on demand. -/
def readArgs (s : EliminatorState) (h : Int) : Nat → List Nat × EliminatorState
  | 0 => ([], s)
  | n + 1 =>
    let p := stackElement s h
    let q := readArgs p.2 (h - 1) n
    (p.1 :: q.1, q.2)

/-- Modelled from the spec: processing of a pure opcode of arity `n → 1`:
pop `n` classes, combine through `find_or_create`, push the result. -/
def feedPureOperation (s : EliminatorState) (item : AssemblyItem) (n : Nat) :
    EliminatorState :=
  let q := readArgs s s.stackHeight n
  let p := findOrCreate q.2.expressionClasses item q.1 0
  let s1 :=
    { q.2 with
      expressionClasses := p.2
      stackHeight := s.stackHeight - (n : Int) + 1 }
  setStackElement s1 s1.stackHeight p.1

/-- Modelled from the spec: processing of an impure opcode of arity
`n → 1` (e.g. `CALL`, `BALANCE`): increment the sequence number, invalidate
storage and memory knowledge entirely, and push an opaque class stamped with
the new sequence number. -/
def feedImpureOperation (s : EliminatorState) (item : AssemblyItem) (n : Nat) :
    EliminatorState :=
  let q := readArgs s s.stackHeight n
  let p := findOrCreate q.2.expressionClasses item q.1 (q.2.sequenceNumber + 1)
  let s1 :=
    { q.2 with
      expressionClasses := p.2
      sequenceNumber := q.2.sequenceNumber + 1
      storageContent := []
      memoryContent := []
      stackHeight := s.stackHeight - (n : Int) + 1 }
  setStackElement s1 s1.stackHeight p.1

/-- Modelled from the spec: processing of a push-like item (a `Push`
immediate or a `PushTag`): find or create the constant class and place it
on the new stack top. -/
def feedPush (s : EliminatorState) (item : AssemblyItem) : EliminatorState :=
  let p := findOrCreate s.expressionClasses item [] 0
  let s1 :=
    { s with
      expressionClasses := p.2
      stackHeight := s.stackHeight + 1 }
  setStackElement s1 s1.stackHeight p.1

/-- Modelled from the spec: `CommonSubexpressionEliminator::feedItem` (body
not in the tree).  Feeds one assembly item into the analysis, updating the
virtual stack, the sequence number, the storage/memory knowledge, the store
log and the expression classes.  Block-breaking items are never fed by
`feedItems`; on them this model is the identity. -/
def feedItem (s : EliminatorState) (item : AssemblyItem) : EliminatorState :=
  match item with
  | .Push _ => feedPush s item
  | .PushTag _ => feedPush s item
  | .Tag _ => s
  | .Operation inst =>
    match inst with
    | .DUP i =>
      let p := stackElement s (s.stackHeight - (i : Int) + 1)
      let s1 := setStackElement p.2 (p.2.stackHeight + 1) p.1
      { s1 with stackHeight := s1.stackHeight + 1 }
    | .SWAP i => swapStackElements s s.stackHeight (s.stackHeight - (i : Int))
    | .POP => { s with stackHeight := s.stackHeight - 1 }
    | .SLOAD =>
      let p := stackElement s s.stackHeight
      let q := loadFromStorage p.2 p.1
      setStackElement q.2 q.2.stackHeight q.1
    | .SSTORE =>
      let p := stackElement s s.stackHeight
      let q := stackElement p.2 (p.2.stackHeight - 1)
      let s1 := { q.2 with stackHeight := q.2.stackHeight - 2 }
      storeInStorage s1 p.1 q.1
    | .MLOAD =>
      let p := stackElement s s.stackHeight
      let q := loadFromMemory p.2 p.1
      setStackElement q.2 q.2.stackHeight q.1
    | .MSTORE =>
      let p := stackElement s s.stackHeight
      let q := stackElement p.2 (p.2.stackHeight - 1)
      let s1 := { q.2 with stackHeight := q.2.stackHeight - 2 }
      storeInMemory s1 p.1 q.1
    | .ADD => feedPureOperation s item 2
    | .MUL => feedPureOperation s item 2
    | .SUB => feedPureOperation s item 2
    | .DIV => feedPureOperation s item 2
    | .EQ => feedPureOperation s item 2
    | .AND => feedPureOperation s item 2
    | .OR => feedPureOperation s item 2
    | .XOR => feedPureOperation s item 2
    | .LT => feedPureOperation s item 2
    | .GT => feedPureOperation s item 2
    | .NOT => feedPureOperation s item 1
    | .BALANCE => feedImpureOperation s item 1
    | .CALL => feedImpureOperation s item 7
    | .STOP => s
    | .JUMP => s
    | .JUMPI => s
    | .JUMPDEST => s
    | .RETURN => s
    | .SUICIDE => s
    | .INVALID => s

/-- `CommonSubexpressionEliminator::feedItems` (template body in the
header): feed items until the end of the range or the first item that
breaks the basic block; that item is returned unconsumed together with the
rest of the range. -/
def feedItems (s : EliminatorState) :
    List AssemblyItem → EliminatorState × List AssemblyItem
  | [] => (s, [])
  | item :: rest =>
    if breaksBasicBlock item then (s, item :: rest)
    else feedItems (feedItem s item) rest

/-- Feeding a whole list of (non-breaking) items one by one. -/
def feedRun (s : EliminatorState) (items : List AssemblyItem) : EliminatorState :=
  items.foldl feedItem s

/-- The `CSECodeGenerator` after construction (header: the constructor
takes the class store and the store operations, which have to be sorted
ascendingly by sequence number), together with the working fields declared
in the header that the emission phase updates: the generated items, the
current stack height relative to the start, and the current stack
content. -/
structure GeneratorState where
  expressionClasses : ExpressionClasses
  storeOperations : List StoreOperation
  generatedItems : List AssemblyItem
  stackHeight : Int
  stack : List (Int × Nat)
deriving Repr, DecidableEq

/-- Constructing a `CSECodeGenerator` from the class store and the store
log (header constructor: working fields start empty/zero). -/
def GeneratorState.init (ec : ExpressionClasses) (ops : List StoreOperation) :
    GeneratorState :=
  { expressionClasses := ec
    storeOperations := ops
    generatedItems := []
    stackHeight := 0
    stack := [] }

/-- Modelled from the spec: the order in which
`CSECodeGenerator::generateCode` (body not in the tree) emits the
sequence-constrained store operations.  Phase B rule 1: each store of the
store log is emitted in ascending sequence number, i.e. the log — which the
constructor requires sorted — is processed front to back. -/
def storeEmissionOrder (g : GeneratorState) : List StoreOperation :=
  g.storeOperations

/-- Modelled from the spec: `CSECodeGenerator::appendItem` (body not in the
tree).  Appends the given assembly item to the generated items; it performs
no rewriting of previously emitted items. -/
def appendItem (g : GeneratorState) (item : AssemblyItem) : GeneratorState :=
  { g with generatedItems := g.generatedItems ++ [item] }

/-- The swap instruction retrieving the element at `fromPosition` given the
current stack height. -/
def swapInstructionFor (g : GeneratorState) (fromPosition : Int) : AssemblyItem :=
  AssemblyItem.Operation (Inst.SWAP (g.stackHeight - fromPosition).toNat)

/-- Exchange of the stack-map entries at the two heights. -/
def swapStackEntries (st : List (Int × Nat)) (a b : Int) : List (Int × Nat) :=
  match lookupA st a, lookupA st b with
  | some x, some y => setA (setA st a y) b x
  | _, _ => st

/-- Modelled from the spec: `CSECodeGenerator::appendOrRemoveSwap` (body
not in the tree).  Emits the swap retrieving the element at the given stack
position; when the immediately previously emitted item is the identical
swap instruction, that last item is removed instead of the new one being
appended, so the cancelling pair contributes nothing to the output.  In
both cases the tracked stack content is updated accordingly. -/
def appendOrRemoveSwap (g : GeneratorState) (fromPosition : Int) : GeneratorState :=
  let instr := swapInstructionFor g fromPosition
  let st := swapStackEntries g.stack fromPosition g.stackHeight
  if g.generatedItems.getLast? = some instr then
    { g with generatedItems := g.generatedItems.dropLast, stack := st }
  else
    { g with generatedItems := g.generatedItems ++ [instr], stack := st }

/-- A well-formed assembly item of the stack VM: dup and swap depths lie in
1..16 (the assembly-item contract expected from the upstream producer). -/
def validItem : AssemblyItem → Prop
  | .Operation (.DUP i) => 1 ≤ i ∧ i ≤ 16
  | .Operation (.SWAP i) => 1 ≤ i ∧ i ≤ 16
  | _ => True

/-- The two components returned by `feedItems` never grow the remainder. -/
theorem feedItems_rest_length_le (items : List AssemblyItem) :
    ∀ s : EliminatorState, (feedItems s items).2.length ≤ items.length := by
  induction items with
  | nil => intro s; simp [feedItems]
  | cons item rest ih =>
    intro s
    by_cases hb : breaksBasicBlock item
    · simp [feedItems, hb]
    · simpa [feedItems, hb] using Nat.le_succ_of_le (ih (feedItem s item))

/-- Modelled from the spec: the top-level optimizer loop.  Consume items
until a basic-block break, run the feed phase on a fresh eliminator, emit
the per-block optimized output (`gen`, standing for `getOptimizedItems`,
whose body is not in the tree) followed by the boundary item verbatim, then
repeat on the remaining input. -/
def optimizeStream (gen : EliminatorState → List AssemblyItem) :
    List AssemblyItem → List AssemblyItem
  | items =>
    match hfi : feedItems initialState items with
    | (s, []) => gen s
    | (s, b :: rest) =>
      have hlt : rest.length < items.length := by
        have h2 := feedItems_rest_length_le items initialState
        rw [hfi] at h2
        simpa using Nat.lt_of_lt_of_le (Nat.lt_succ_self rest.length) h2
      gen s ++ b :: optimizeStream gen rest
  termination_by items => items.length

/-! ### Basic characterization of the feed loop -/

/-- `feedItems` folds `feedItem` over the longest breaking-free prefix and
returns the remainder of the range. -/
theorem feedItems_eq (items : List AssemblyItem) :
    ∀ s : EliminatorState,
      feedItems s items =
        (feedRun s (items.takeWhile fun it => !breaksBasicBlock it),
         items.dropWhile fun it => !breaksBasicBlock it) := by
  induction items with
  | nil => intro s; rfl
  | cons item rest ih =>
    intro s
    by_cases hb : breaksBasicBlock item
    · simp [feedItems, hb, List.takeWhile_cons, List.dropWhile_cons, feedRun]
    · simp [feedItems, hb, List.takeWhile_cons, List.dropWhile_cons, feedRun,
        ih (feedItem s item)]

/-- C2: for every iterator range, `feedItems` feeds each item in order into
the eliminator exactly until the end is reached or the first item for which
`breaksBasicBlock` holds, and returns the position of that first breaking
item without consuming it; no fed item satisfies `breaksBasicBlock`. -/
theorem feedItems_consumes_until_break (s : EliminatorState)
    (items : List AssemblyItem) :
    (feedItems s items).1 =
      feedRun s (items.takeWhile fun it => !breaksBasicBlock it) ∧
    (feedItems s items).2 =
      items.dropWhile (fun it => !breaksBasicBlock it) ∧
    (∀ it ∈ items.takeWhile fun it => !breaksBasicBlock it,
      breaksBasicBlock it = false) ∧
    (∀ b rest, (feedItems s items).2 = b :: rest → breaksBasicBlock b = true) := by
  refine ⟨by rw [feedItems_eq], by rw [feedItems_eq], ?_, ?_⟩
  · intro it hit
    have h := List.mem_takeWhile_imp hit
    simpa using h
  · intro b rest hbr
    rw [feedItems_eq] at hbr
    simp only at hbr
    have h := List.head?_dropWhile_not (fun it => !breaksBasicBlock it) items
    rw [hbr] at h
    simpa using h

/-- C2 witness: the loop at a concrete input, with the conditional conjunct
discharged at the breaking item `JUMP`. -/
theorem feedItems_consumes_until_break_witness :
    breaksBasicBlock (AssemblyItem.Operation Inst.JUMP) = true :=
  (feedItems_consumes_until_break initialState
      [AssemblyItem.Push 1, AssemblyItem.Operation Inst.JUMP,
       AssemblyItem.Push 2]).2.2.2
    (AssemblyItem.Operation Inst.JUMP) [AssemblyItem.Push 2] (by decide)

/-- C10: feeding an empty range returns the begin iterator immediately,
feeds nothing, and leaves every component of the eliminator state
unchanged. -/
theorem feedItems_nil_frame (s : EliminatorState) :
    feedItems s [] = (s, []) ∧
    (feedItems s []).1.stackHeight = s.stackHeight ∧
    (feedItems s []).1.stackElements = s.stackElements ∧
    (feedItems s []).1.sequenceNumber = s.sequenceNumber ∧
    (feedItems s []).1.storageContent = s.storageContent ∧
    (feedItems s []).1.memoryContent = s.memoryContent ∧
    (feedItems s []).1.storeOperations = s.storeOperations ∧
    (feedItems s []).1.expressionClasses = s.expressionClasses :=
  ⟨rfl, rfl, rfl, rfl, rfl, rfl, rfl, rfl⟩

/-- C7: `breaksBasicBlock` holds exactly for `JUMP`, `JUMPI`, `STOP`,
`RETURN`, `SUICIDE`, `INVALID`, `JUMPDEST` and any `Tag`; the eliminator
stops before such items (it consumes nothing of a range starting with one),
and the top-level loop emits the boundary item verbatim right after the
block's optimized output. -/
theorem breaksBasicBlock_characterization :
    (∀ item : AssemblyItem,
      breaksBasicBlock item = true ↔
        (item = .Operation .JUMP ∨ item = .Operation .JUMPI ∨
         item = .Operation .STOP ∨ item = .Operation .RETURN ∨
         item = .Operation .SUICIDE ∨ item = .Operation .INVALID ∨
         item = .Operation .JUMPDEST ∨ ∃ l, item = .Tag l)) ∧
    (∀ (s : EliminatorState) (b : AssemblyItem) (rest : List AssemblyItem),
      breaksBasicBlock b = true → feedItems s (b :: rest) = (s, b :: rest)) ∧
    (∀ (gen : EliminatorState → List AssemblyItem)
        (items : List AssemblyItem) (s : EliminatorState)
        (b : AssemblyItem) (rest : List AssemblyItem),
      feedItems initialState items = (s, b :: rest) →
      optimizeStream gen items = gen s ++ b :: optimizeStream gen rest) := by
  refine ⟨?_, ?_, ?_⟩
  · intro item
    cases item with
    | Operation inst => cases inst <;> simp [breaksBasicBlock]
    | Push v => simp [breaksBasicBlock]
    | Tag l => simp [breaksBasicBlock]
    | PushTag l => simp [breaksBasicBlock]
  · intro s b rest hb
    simp [feedItems, hb]
  · intro gen items s b rest hfi
    rw [optimizeStream]
    split
    · rename_i s0 h0
      rw [hfi] at h0
      cases h0
    · rename_i s0 b0 rest0 h0
      rw [hfi] at h0
      cases h0
      rfl

/-- C7 witness: the characterization applied at concrete inputs — the
`JUMPI` opcode breaks the block, a range starting with a `Tag` is returned
untouched, and a concrete stream is split with the boundary emitted
verbatim. -/
theorem breaksBasicBlock_characterization_witness :
    feedItems initialState [AssemblyItem.Tag 5, AssemblyItem.Push 3] =
      (initialState, [AssemblyItem.Tag 5, AssemblyItem.Push 3]) ∧
    optimizeStream (fun _ => []) [AssemblyItem.Operation Inst.JUMP] =
      [] ++ AssemblyItem.Operation Inst.JUMP ::
        optimizeStream (fun _ => []) [] := by
  constructor
  · exact breaksBasicBlock_characterization.2.1 initialState
      (AssemblyItem.Tag 5) [AssemblyItem.Push 3] (by decide)
  · exact breaksBasicBlock_characterization.2.2 (fun _ => [])
      [AssemblyItem.Operation Inst.JUMP] initialState
      (AssemblyItem.Operation Inst.JUMP) [] (by decide)

/-- Emitting a swap does not change the tracked stack height. -/
theorem appendOrRemoveSwap_stackHeight (g : GeneratorState) (p : Int) :
    (appendOrRemoveSwap g p).stackHeight = g.stackHeight := by
  simp only [appendOrRemoveSwap]
  split <;> rfl

/-- Cancelling branch of `appendOrRemoveSwap`. -/
theorem appendOrRemoveSwap_of_last_eq (g : GeneratorState) (p : Int)
    (h : g.generatedItems.getLast? = some (swapInstructionFor g p)) :
    (appendOrRemoveSwap g p).generatedItems = g.generatedItems.dropLast := by
  simp only [appendOrRemoveSwap, h]
  simp

/-- Plain-append branch of `appendOrRemoveSwap`. -/
theorem appendOrRemoveSwap_of_last_ne (g : GeneratorState) (p : Int)
    (h : g.generatedItems.getLast? ≠ some (swapInstructionFor g p)) :
    (appendOrRemoveSwap g p).generatedItems =
      g.generatedItems ++ [swapInstructionFor g p] := by
  simp only [appendOrRemoveSwap]
  rw [if_neg h]

/-- The swap instruction to be emitted is unchanged by a previous swap
emission at the same position. -/
theorem swapInstructionFor_appendOrRemoveSwap (g : GeneratorState) (p q : Int) :
    swapInstructionFor (appendOrRemoveSwap g q) p = swapInstructionFor g p := by
  unfold swapInstructionFor
  rw [appendOrRemoveSwap_stackHeight]

/-- C8: when the generator is about to emit a swap and the immediately
previously emitted item is the identical swap instruction, both are elided
(the about-to-be-emitted one is not appended and the previous one is
removed), so the pair contributes nothing; otherwise the swap is appended
as is, and `appendItem` only ever appends. -/
theorem appendOrRemoveSwap_cancels :
    (∀ (g : GeneratorState) (p : Int),
      g.generatedItems.getLast? = some (swapInstructionFor g p) →
      (appendOrRemoveSwap g p).generatedItems = g.generatedItems.dropLast) ∧
    (∀ (g : GeneratorState) (p : Int),
      g.generatedItems.getLast? ≠ some (swapInstructionFor g p) →
      (appendOrRemoveSwap g p).generatedItems =
        g.generatedItems ++ [swapInstructionFor g p]) ∧
    (∀ (g : GeneratorState) (p : Int),
      g.generatedItems.getLast? ≠ some (swapInstructionFor g p) →
      (appendOrRemoveSwap (appendOrRemoveSwap g p) p).generatedItems =
        g.generatedItems) ∧
    (∀ (g : GeneratorState) (item : AssemblyItem),
      (appendItem g item).generatedItems = g.generatedItems ++ [item]) := by
  refine ⟨appendOrRemoveSwap_of_last_eq, appendOrRemoveSwap_of_last_ne, ?_, ?_⟩
  · intro g p h
    have h1 := appendOrRemoveSwap_of_last_ne g p h
    have hlast : (appendOrRemoveSwap g p).generatedItems.getLast? =
        some (swapInstructionFor (appendOrRemoveSwap g p) p) := by
      rw [h1, swapInstructionFor_appendOrRemoveSwap]
      simp
    have h2 := appendOrRemoveSwap_of_last_eq (appendOrRemoveSwap g p) p hlast
    rw [h2, h1]
    simp
  · intro g item
    rfl

/-- C8 witness: a `SWAP2` emitted right after an identical `SWAP2` collapses
to nothing at a concrete generator state. -/
theorem appendOrRemoveSwap_cancels_witness :
    (appendOrRemoveSwap (appendOrRemoveSwap
        { GeneratorState.init ExpressionClasses.empty [] with stackHeight := 2 }
        0) 0).generatedItems =
      ({ GeneratorState.init ExpressionClasses.empty [] with
          stackHeight := 2 } : GeneratorState).generatedItems :=
  appendOrRemoveSwap_cancels.2.2.1
    { GeneratorState.init ExpressionClasses.empty [] with stackHeight := 2 }
    0 (by decide)

/-! ### Frame lemmas for the feed-phase helpers -/

theorem stackElement_seq (s : EliminatorState) (h : Int) :
    (stackElement s h).2.sequenceNumber = s.sequenceNumber := by
  simp only [stackElement, initialStackElement]
  split <;> rfl

theorem stackElement_store (s : EliminatorState) (h : Int) :
    (stackElement s h).2.storeOperations = s.storeOperations := by
  simp only [stackElement, initialStackElement]
  split <;> rfl

theorem stackElement_height (s : EliminatorState) (h : Int) :
    (stackElement s h).2.stackHeight = s.stackHeight := by
  simp only [stackElement, initialStackElement]
  split <;> rfl

theorem stackElement_storage (s : EliminatorState) (h : Int) :
    (stackElement s h).2.storageContent = s.storageContent := by
  simp only [stackElement, initialStackElement]
  split <;> rfl

theorem stackElement_memory (s : EliminatorState) (h : Int) :
    (stackElement s h).2.memoryContent = s.memoryContent := by
  simp only [stackElement, initialStackElement]
  split <;> rfl

theorem readArgs_seq (n : Nat) :
    ∀ (s : EliminatorState) (h : Int),
      (readArgs s h n).2.sequenceNumber = s.sequenceNumber := by
  induction n with
  | zero => intro s h; rfl
  | succ n ih =>
    intro s h
    simp only [readArgs]
    rw [ih, stackElement_seq]

theorem readArgs_store (n : Nat) :
    ∀ (s : EliminatorState) (h : Int),
      (readArgs s h n).2.storeOperations = s.storeOperations := by
  induction n with
  | zero => intro s h; rfl
  | succ n ih =>
    intro s h
    simp only [readArgs]
    rw [ih, stackElement_store]

theorem readArgs_height (n : Nat) :
    ∀ (s : EliminatorState) (h : Int),
      (readArgs s h n).2.stackHeight = s.stackHeight := by
  induction n with
  | zero => intro s h; rfl
  | succ n ih =>
    intro s h
    simp only [readArgs]
    rw [ih, stackElement_height]

theorem setStackElement_seq (s : EliminatorState) (h : Int) (c : Nat) :
    (setStackElement s h c).sequenceNumber = s.sequenceNumber := rfl

theorem setStackElement_store (s : EliminatorState) (h : Int) (c : Nat) :
    (setStackElement s h c).storeOperations = s.storeOperations := rfl

theorem setStackElement_height (s : EliminatorState) (h : Int) (c : Nat) :
    (setStackElement s h c).stackHeight = s.stackHeight := rfl

theorem swapStackElements_seq (s : EliminatorState) (a b : Int) :
    (swapStackElements s a b).sequenceNumber = s.sequenceNumber := by
  simp only [swapStackElements, setStackElement_seq]
  rw [stackElement_seq, stackElement_seq]

theorem swapStackElements_store (s : EliminatorState) (a b : Int) :
    (swapStackElements s a b).storeOperations = s.storeOperations := by
  simp only [swapStackElements]
  rw [setStackElement_store, setStackElement_store, stackElement_store,
    stackElement_store]

theorem swapStackElements_height (s : EliminatorState) (a b : Int) :
    (swapStackElements s a b).stackHeight = s.stackHeight := by
  simp only [swapStackElements]
  rw [setStackElement_height, setStackElement_height, stackElement_height,
    stackElement_height]

theorem loadFromStorage_seq (s : EliminatorState) (slot : Nat) :
    (loadFromStorage s slot).2.sequenceNumber = s.sequenceNumber := by
  simp only [loadFromStorage]
  split <;> rfl

theorem loadFromStorage_store (s : EliminatorState) (slot : Nat) :
    (loadFromStorage s slot).2.storeOperations = s.storeOperations := by
  simp only [loadFromStorage]
  split <;> rfl

theorem loadFromStorage_height (s : EliminatorState) (slot : Nat) :
    (loadFromStorage s slot).2.stackHeight = s.stackHeight := by
  simp only [loadFromStorage]
  split <;> rfl

theorem loadFromMemory_seq (s : EliminatorState) (slot : Nat) :
    (loadFromMemory s slot).2.sequenceNumber = s.sequenceNumber := by
  simp only [loadFromMemory]
  split <;> rfl

theorem loadFromMemory_store (s : EliminatorState) (slot : Nat) :
    (loadFromMemory s slot).2.storeOperations = s.storeOperations := by
  simp only [loadFromMemory]
  split <;> rfl

theorem loadFromMemory_height (s : EliminatorState) (slot : Nat) :
    (loadFromMemory s slot).2.stackHeight = s.stackHeight := by
  simp only [loadFromMemory]
  split <;> rfl

theorem feedPush_seq (s : EliminatorState) (item : AssemblyItem) :
    (feedPush s item).sequenceNumber = s.sequenceNumber := rfl

theorem feedPush_store (s : EliminatorState) (item : AssemblyItem) :
    (feedPush s item).storeOperations = s.storeOperations := rfl

theorem feedPureOperation_seq (s : EliminatorState) (item : AssemblyItem)
    (n : Nat) : (feedPureOperation s item n).sequenceNumber = s.sequenceNumber := by
  simp only [feedPureOperation, setStackElement_seq]
  exact readArgs_seq n s s.stackHeight

theorem feedPureOperation_store (s : EliminatorState) (item : AssemblyItem)
    (n : Nat) : (feedPureOperation s item n).storeOperations = s.storeOperations := by
  simp only [feedPureOperation]
  rw [setStackElement_store]
  exact readArgs_store n s s.stackHeight

theorem feedImpureOperation_seq (s : EliminatorState) (item : AssemblyItem)
    (n : Nat) :
    (feedImpureOperation s item n).sequenceNumber = s.sequenceNumber + 1 := by
  simp only [feedImpureOperation]
  rw [setStackElement_seq]
  simp only []
  rw [readArgs_seq]

theorem feedImpureOperation_store (s : EliminatorState) (item : AssemblyItem)
    (n : Nat) :
    (feedImpureOperation s item n).storeOperations = s.storeOperations := by
  simp only [feedImpureOperation]
  rw [setStackElement_store]
  simp only []
  rw [readArgs_store]

theorem storeInStorage_seq (s : EliminatorState) (slot value : Nat) :
    (storeInStorage s slot value).sequenceNumber = s.sequenceNumber + 1 := rfl

theorem storeInStorage_store (s : EliminatorState) (slot value : Nat) :
    (storeInStorage s slot value).storeOperations =
      s.storeOperations ++ [⟨slot, s.sequenceNumber + 1, value⟩] := rfl

theorem storeInMemory_seq (s : EliminatorState) (slot value : Nat) :
    (storeInMemory s slot value).sequenceNumber = s.sequenceNumber + 1 := rfl

theorem storeInMemory_store (s : EliminatorState) (slot value : Nat) :
    (storeInMemory s slot value).storeOperations =
      s.storeOperations ++ [⟨slot, s.sequenceNumber + 1, value⟩] := rfl

/-- Per-item shape of the sequence number and store log: either the store
log is unchanged and the sequence number does not decrease, or the sequence
number is incremented by one and exactly one store stamped with the new
sequence number is appended. -/
theorem feedItem_store_spec (s : EliminatorState) (item : AssemblyItem) :
    ((feedItem s item).storeOperations = s.storeOperations ∧
      s.sequenceNumber ≤ (feedItem s item).sequenceNumber) ∨
    (∃ slot value,
      (feedItem s item).sequenceNumber = s.sequenceNumber + 1 ∧
      (feedItem s item).storeOperations =
        s.storeOperations ++ [⟨slot, s.sequenceNumber + 1, value⟩]) := by
  cases item with
  | Push v => exact Or.inl ⟨rfl, le_refl _⟩
  | PushTag l => exact Or.inl ⟨rfl, le_refl _⟩
  | Tag l => exact Or.inl ⟨rfl, le_refl _⟩
  | Operation inst =>
    cases inst with
    | DUP i =>
      refine Or.inl ⟨?_, ?_⟩
      · simp only [feedItem]
        rw [setStackElement_store, stackElement_store]
      · simp only [feedItem]
        rw [setStackElement_seq, stackElement_seq]
    | SWAP i =>
      exact Or.inl ⟨swapStackElements_store s _ _,
        le_of_eq (swapStackElements_seq s _ _).symm⟩
    | POP => exact Or.inl ⟨rfl, le_refl _⟩
    | SLOAD =>
      refine Or.inl ⟨?_, ?_⟩
      · simp only [feedItem]
        rw [setStackElement_store, loadFromStorage_store, stackElement_store]
      · simp only [feedItem]
        rw [setStackElement_seq, loadFromStorage_seq, stackElement_seq]
    | MLOAD =>
      refine Or.inl ⟨?_, ?_⟩
      · simp only [feedItem]
        rw [setStackElement_store, loadFromMemory_store, stackElement_store]
      · simp only [feedItem]
        rw [setStackElement_seq, loadFromMemory_seq, stackElement_seq]
    | SSTORE =>
      refine Or.inr ⟨(stackElement s s.stackHeight).1,
        (stackElement (stackElement s s.stackHeight).2
          ((stackElement s s.stackHeight).2.stackHeight - 1)).1, ?_, ?_⟩
      · simp only [feedItem]
        rw [storeInStorage_seq]
        simp only []
        rw [stackElement_seq, stackElement_seq]
      · simp only [feedItem]
        rw [storeInStorage_store]
        simp only []
        rw [stackElement_seq, stackElement_seq, stackElement_store,
          stackElement_store]
    | MSTORE =>
      refine Or.inr ⟨(stackElement s s.stackHeight).1,
        (stackElement (stackElement s s.stackHeight).2
          ((stackElement s s.stackHeight).2.stackHeight - 1)).1, ?_, ?_⟩
      · simp only [feedItem]
        rw [storeInMemory_seq]
        simp only []
        rw [stackElement_seq, stackElement_seq]
      · simp only [feedItem]
        rw [storeInMemory_store]
        simp only []
        rw [stackElement_seq, stackElement_seq, stackElement_store,
          stackElement_store]
    | ADD => exact Or.inl ⟨feedPureOperation_store s _ 2,
        le_of_eq (feedPureOperation_seq s _ 2).symm⟩
    | MUL => exact Or.inl ⟨feedPureOperation_store s _ 2,
        le_of_eq (feedPureOperation_seq s _ 2).symm⟩
    | SUB => exact Or.inl ⟨feedPureOperation_store s _ 2,
        le_of_eq (feedPureOperation_seq s _ 2).symm⟩
    | DIV => exact Or.inl ⟨feedPureOperation_store s _ 2,
        le_of_eq (feedPureOperation_seq s _ 2).symm⟩
    | EQ => exact Or.inl ⟨feedPureOperation_store s _ 2,
        le_of_eq (feedPureOperation_seq s _ 2).symm⟩
    | AND => exact Or.inl ⟨feedPureOperation_store s _ 2,
        le_of_eq (feedPureOperation_seq s _ 2).symm⟩
    | OR => exact Or.inl ⟨feedPureOperation_store s _ 2,
        le_of_eq (feedPureOperation_seq s _ 2).symm⟩
    | XOR => exact Or.inl ⟨feedPureOperation_store s _ 2,
        le_of_eq (feedPureOperation_seq s _ 2).symm⟩
    | LT => exact Or.inl ⟨feedPureOperation_store s _ 2,
        le_of_eq (feedPureOperation_seq s _ 2).symm⟩
    | GT => exact Or.inl ⟨feedPureOperation_store s _ 2,
        le_of_eq (feedPureOperation_seq s _ 2).symm⟩
    | NOT => exact Or.inl ⟨feedPureOperation_store s _ 1,
        le_of_eq (feedPureOperation_seq s _ 1).symm⟩
    | BALANCE => exact Or.inl ⟨feedImpureOperation_store s _ 1,
        le_of_lt (by
          show s.sequenceNumber < (feedImpureOperation s _ 1).sequenceNumber
          rw [feedImpureOperation_seq]; exact Nat.lt_succ_self _)⟩
    | CALL => exact Or.inl ⟨feedImpureOperation_store s _ 7,
        le_of_lt (by
          show s.sequenceNumber < (feedImpureOperation s _ 7).sequenceNumber
          rw [feedImpureOperation_seq]; exact Nat.lt_succ_self _)⟩
    | STOP => exact Or.inl ⟨rfl, le_refl _⟩
    | JUMP => exact Or.inl ⟨rfl, le_refl _⟩
    | JUMPI => exact Or.inl ⟨rfl, le_refl _⟩
    | JUMPDEST => exact Or.inl ⟨rfl, le_refl _⟩
    | RETURN => exact Or.inl ⟨rfl, le_refl _⟩
    | SUICIDE => exact Or.inl ⟨rfl, le_refl _⟩
    | INVALID => exact Or.inl ⟨rfl, le_refl _⟩

/-- Feeding one item never decreases the sequence number. -/
theorem feedItem_seq_mono (s : EliminatorState) (item : AssemblyItem) :
    s.sequenceNumber ≤ (feedItem s item).sequenceNumber := by
  rcases feedItem_store_spec s item with ⟨_, hle⟩ | ⟨slot, value, hseq, _⟩
  · exact hle
  · rw [hseq]; exact Nat.le_succ _

/-- Feeding a list of items never decreases the sequence number. -/
theorem feedRun_seq_mono (items : List AssemblyItem) :
    ∀ s : EliminatorState, s.sequenceNumber ≤ (feedRun s items).sequenceNumber := by
  induction items with
  | nil => intro s; exact le_refl _
  | cons item rest ih =>
    intro s
    exact le_trans (feedItem_seq_mono s item) (ih (feedItem s item))

/-- C5: the eliminator's sequence number starts at 1, is monotonically
non-decreasing across the processing of every item, and every effectful
operation entering the store log is stamped with the sequence number at
which it took effect (the sequence number current right after the item that
produced it). -/
theorem sequenceNumber_spec :
    initialState.sequenceNumber = 1 ∧
    (∀ (s : EliminatorState) (item : AssemblyItem),
      s.sequenceNumber ≤ (feedItem s item).sequenceNumber) ∧
    (∀ (s : EliminatorState) (items : List AssemblyItem),
      s.sequenceNumber ≤ (feedRun s items).sequenceNumber) ∧
    (∀ (s : EliminatorState) (item : AssemblyItem),
      ∀ e ∈ (feedItem s item).storeOperations,
        e ∈ s.storeOperations ∨
        e.sequenceNumber = (feedItem s item).sequenceNumber) := by
  refine ⟨rfl, feedItem_seq_mono, fun s items => feedRun_seq_mono items s, ?_⟩
  intro s item e he
  rcases feedItem_store_spec s item with ⟨hst, _⟩ | ⟨slot, value, hseq, hst⟩
  · rw [hst] at he
    exact Or.inl he
  · rw [hst] at he
    rcases List.mem_append.1 he with hm | hm
    · exact Or.inl hm
    · right
      rw [hseq]
      cases List.mem_singleton.1 hm
      rfl

/-- C5 witness: at a concrete `SSTORE`, the single log entry is stamped
with the post-item sequence number. -/
theorem sequenceNumber_spec_witness :
    (⟨0, 2, 1⟩ : StoreOperation) ∈ initialState.storeOperations ∨
    (⟨0, 2, 1⟩ : StoreOperation).sequenceNumber =
      (feedItem initialState (AssemblyItem.Operation Inst.SSTORE)).sequenceNumber :=
  sequenceNumber_spec.2.2.2 initialState (AssemblyItem.Operation Inst.SSTORE)
    ⟨0, 2, 1⟩ (by decide)

/-- The store-log invariant: all logged sequence numbers are bounded by the
current one and the log is sorted ascending by sequence number. -/
def StoreLogSorted (s : EliminatorState) : Prop :=
  (∀ e ∈ s.storeOperations, e.sequenceNumber ≤ s.sequenceNumber) ∧
  List.Sorted (fun a b : StoreOperation =>
    a.sequenceNumber ≤ b.sequenceNumber) s.storeOperations

theorem feedItem_storeLogSorted (s : EliminatorState) (item : AssemblyItem)
    (hs : StoreLogSorted s) : StoreLogSorted (feedItem s item) := by
  obtain ⟨hbound, hsorted⟩ := hs
  rcases feedItem_store_spec s item with ⟨hst, hle⟩ | ⟨slot, value, hseq, hst⟩
  · exact ⟨fun e he => le_trans (hbound e (hst ▸ he)) hle, hst ▸ hsorted⟩
  · constructor
    · intro e he
      rw [hst] at he
      rcases List.mem_append.1 he with hm | hm
      · rw [hseq]
        exact le_trans (hbound e hm) (Nat.le_succ _)
      · cases List.mem_singleton.1 hm
        rw [hseq]
    · rw [hst]
      refine List.pairwise_append.2 ⟨hsorted, List.pairwise_singleton _ _, ?_⟩
      intro a ha b hb
      cases List.mem_singleton.1 hb
      exact le_trans (hbound a ha) (Nat.le_succ _)

theorem feedRun_storeLogSorted (items : List AssemblyItem) :
    ∀ s : EliminatorState, StoreLogSorted s → StoreLogSorted (feedRun s items) := by
  induction items with
  | nil => intro s hs; exact hs
  | cons item rest ih =>
    intro s hs
    exact ih (feedItem s item) (feedItem_storeLogSorted s item hs)

/-- C6: at every point of the feed phase (i.e. after feeding any item list
into a fresh eliminator), the store log is sorted ascending by sequence
number. -/
theorem storeLog_sorted (items : List AssemblyItem) :
    List.Sorted (fun a b : StoreOperation =>
      a.sequenceNumber ≤ b.sequenceNumber)
      (feedRun initialState items).storeOperations :=
  (feedRun_storeLogSorted items initialState
    ⟨fun e he => absurd he (List.not_mem_nil e), List.sorted_nil⟩).2

/-- C3: in the generated output for a block (the code generator initialized
with the results of feeding any item list into a fresh eliminator), the
emission of effectful store operations respects sequence numbers: a store
with strictly smaller sequence number is emitted strictly earlier, so no
store is emitted before another store of smaller sequence number. -/
theorem storeEmission_respects_sequence (items : List AssemblyItem)
    (g : GeneratorState)
    (hg : g = GeneratorState.init
      (feedRun initialState items).expressionClasses
      (feedRun initialState items).storeOperations)
    (a b : Fin (storeEmissionOrder g).length)
    (hlt : ((storeEmissionOrder g).get a).sequenceNumber <
      ((storeEmissionOrder g).get b).sequenceNumber) :
    (a : Nat) < (b : Nat) := by
  have hsorted : List.Sorted (fun x y : StoreOperation =>
      x.sequenceNumber ≤ y.sequenceNumber) (storeEmissionOrder g) := by
    rw [hg]
    exact (feedRun_storeLogSorted items initialState
      ⟨fun e he => absurd he (List.not_mem_nil e), List.sorted_nil⟩).2
  by_contra hab
  rcases Nat.lt_or_ge (b : Nat) (a : Nat) with hba | hba
  · exact absurd hlt
      (not_lt_of_le (hsorted.rel_get_of_lt (Fin.lt_def.2 hba)))
  · have : (a : Nat) = (b : Nat) := le_antisymm hba (Nat.le_of_not_lt hab)
    rw [Fin.ext this] at hlt
    exact lt_irrefl _ hlt

/-- C3 witness: two stores of a concrete block, emitted in sequence
order. -/
theorem storeEmission_respects_sequence_witness :
    (0 : Nat) < (1 : Nat) :=
  storeEmission_respects_sequence
    [AssemblyItem.Operation Inst.SSTORE, AssemblyItem.Operation Inst.SSTORE]
    (GeneratorState.init
      (feedRun initialState [AssemblyItem.Operation Inst.SSTORE,
        AssemblyItem.Operation Inst.SSTORE]).expressionClasses
      (feedRun initialState [AssemblyItem.Operation Inst.SSTORE,
        AssemblyItem.Operation Inst.SSTORE]).storeOperations)
    rfl ⟨0, by decide⟩ ⟨1, by decide⟩ (by decide)

/-! ### Canonicity of `find_or_create` -/

theorem mem_insertSorted (a x : Nat) (l : List Nat) :
    a ∈ insertSorted x l ↔ a = x ∨ a ∈ l := by
  induction l with
  | nil => simp [insertSorted]
  | cons y ys ih =>
    by_cases h : x ≤ y
    · simp [insertSorted, h]
    · simp only [insertSorted, if_neg h, List.mem_cons, ih]
      tauto

theorem mem_sortIds (a : Nat) (l : List Nat) (h : a ∈ sortIds l) : a ∈ l := by
  induction l with
  | nil => simpa [sortIds] using h
  | cons y ys ih =>
    rcases (mem_insertSorted a y (sortIds ys)).1 h with rfl | hm
    · exact List.mem_cons_self _ _
    · exact List.mem_cons_of_mem _ (ih hm)

theorem mem_normalizeArgs (item : AssemblyItem) (args : List Nat) (a : Nat)
    (h : a ∈ normalizeArgs item args) : a ∈ args := by
  unfold normalizeArgs at h
  by_cases hc : isCommutativeOperation item
  · exact mem_sortIds a args (by simpa [hc] using h)
  · simpa [hc] using h

theorem findExpr_append_self (l : List Expression) (e : Expression)
    (h : findExpr l e = none) : findExpr (l ++ [e]) e = some l.length := by
  induction l with
  | nil => simp [findExpr]
  | cons x xs ih =>
    simp only [findExpr] at h
    by_cases hx : x = e
    · simp [hx] at h
    · rw [if_neg hx] at h
      have h' : findExpr xs e = none := by
        cases hfe : findExpr xs e with
        | none => rfl
        | some i => rw [hfe] at h; simp at h
      show findExpr (x :: (xs ++ [e])) e = some (xs.length + 1)
      simp only [findExpr, if_neg hx, ih h']
      rfl

/-- Looking the same expression up again right after storing it returns
the same id. -/
theorem findOrCreateTuple_idem (ec : ExpressionClasses) (e : Expression) :
    (findOrCreateTuple (findOrCreateTuple ec e).2 e).1 =
      (findOrCreateTuple ec e).1 := by
  rcases h : findExpr ec.representatives e with _ | i
  · simp [findOrCreateTuple, h, findExpr_append_self _ _ h]
  · simp [findOrCreateTuple, h]

/-- `findOrCreateTuple` only ever appends to the class store. -/
theorem findOrCreateTuple_extend (ec : ExpressionClasses) (e : Expression) :
    ∃ t, (findOrCreateTuple ec e).2.representatives =
      ec.representatives ++ t := by
  rcases h : findExpr ec.representatives e with _ | i
  · exact ⟨[e], by simp [findOrCreateTuple, h]⟩
  · exact ⟨[], by simp [findOrCreateTuple, h]⟩

theorem isConstClass_extend (ec ec' : ExpressionClasses) (t : List Expression)
    (h : ec'.representatives = ec.representatives ++ t)
    (a : Nat) (ha : a < ec.representatives.length) :
    isConstClass ec' a = isConstClass ec a := by
  unfold isConstClass
  rw [h, List.get?_append ha]

theorem isPureClass_extend (ec ec' : ExpressionClasses) (t : List Expression)
    (h : ec'.representatives = ec.representatives ++ t)
    (a : Nat) (ha : a < ec.representatives.length) :
    isPureClass ec' a = isPureClass ec a := by
  unfold isPureClass
  rw [h, List.get?_append ha]

/-- Growing the class store does not change the simplification outcome of
an expression over already-existing classes. -/
theorem simplify_extend (ec ec' : ExpressionClasses) (t : List Expression)
    (hext : ec'.representatives = ec.representatives ++ t)
    (item : AssemblyItem) (args : List Nat)
    (hval : ∀ a ∈ args, a < ec.representatives.length) :
    simplify ec' item args = simplify ec item args := by
  cases item with
  | Operation inst =>
    match args with
    | [] => rfl
    | [a] => rfl
    | a :: b :: c :: rest => rfl
    | [a, b] =>
      have ha : a < ec.representatives.length := hval a (by simp)
      have hb : b < ec.representatives.length := hval b (by simp)
      simp only [simplify]
      rw [isConstClass_extend ec ec' t hext a ha,
        isConstClass_extend ec ec' t hext b hb,
        isPureClass_extend ec ec' t hext a ha]
  | Push v => rfl
  | Tag l => rfl
  | PushTag l => rfl

/-- Unfolding equation for `findOrCreate`. -/
theorem findOrCreate_eq (ec : ExpressionClasses) (item : AssemblyItem)
    (args : List Nat) (seq : Nat) :
    findOrCreate ec item args seq =
      match simplify ec item (normalizeArgs item args) with
      | .reuse id => (id, ec)
      | .const v => findOrCreateTuple ec ⟨AssemblyItem.Push v, [], 0⟩
      | .keep => findOrCreateTuple ec
          ⟨item, normalizeArgs item args, seq⟩ := rfl

/-- C4: class canonicity of `find_or_create`.  Two invocations whose
operand lists agree after commutative normalization and algebraic rewriting
return identical class ids — both when invoked on the same class store, and
when the second invocation runs on the store returned by the first (the
hash-consing invariant), provided the operand ids are valid classes. -/
theorem findOrCreate_canonical (ec : ExpressionClasses) (item : AssemblyItem)
    (xs ys : List Nat) (seq : Nat)
    (hnf : normalForm ec item xs = normalForm ec item ys)
    (hxs : ∀ a ∈ xs, a < ec.representatives.length)
    (hys : ∀ a ∈ ys, a < ec.representatives.length) :
    (findOrCreate ec item xs seq).1 = (findOrCreate ec item ys seq).1 ∧
    (findOrCreate (findOrCreate ec item xs seq).2 item ys seq).1 =
      (findOrCreate ec item xs seq).1 := by
  have hs : simplify ec item (normalizeArgs item xs) =
      simplify ec item (normalizeArgs item ys) :=
    congrArg Prod.fst hnf
  have hn : normalizeArgs item xs = normalizeArgs item ys :=
    congrArg Prod.snd hnf
  have hvn : ∀ a ∈ normalizeArgs item ys, a < ec.representatives.length :=
    fun a ha => hys a (mem_normalizeArgs item ys a ha)
  constructor
  · rw [findOrCreate_eq, findOrCreate_eq, hn]
  · rcases hr : simplify ec item (normalizeArgs item xs) with id | v | _
    · have hr2 : simplify ec item (normalizeArgs item ys) = .reuse id :=
        hs.symm.trans hr
      rw [findOrCreate_eq ec item xs seq, hr]
      rw [findOrCreate_eq ec item ys seq, hr2]
    · have hr2 : simplify ec item (normalizeArgs item ys) = .const v :=
        hs.symm.trans hr
      rw [findOrCreate_eq ec item xs seq, hr]
      obtain ⟨t, ht⟩ :=
        findOrCreateTuple_extend ec ⟨AssemblyItem.Push v, [], 0⟩
      rw [findOrCreate_eq, simplify_extend ec _ t ht item
        (normalizeArgs item ys) hvn, hr2]
      exact findOrCreateTuple_idem ec ⟨AssemblyItem.Push v, [], 0⟩
    · have hr2 : simplify ec item (normalizeArgs item ys) = .keep :=
        hs.symm.trans hr
      rw [findOrCreate_eq ec item xs seq, hr]
      obtain ⟨t, ht⟩ :=
        findOrCreateTuple_extend ec ⟨item, normalizeArgs item xs, seq⟩
      rw [findOrCreate_eq, simplify_extend ec _ t ht item
        (normalizeArgs item ys) hvn, hr2, ← hn]
      exact findOrCreateTuple_idem ec ⟨item, normalizeArgs item xs, seq⟩

/-- C4 witness: `ADD` over the classes of `Push 1` and `Push 2`, with the
operand lists `[0, 1]` and `[1, 0]`, returns the same id in both calls and
again on the store produced by the first call. -/
theorem findOrCreate_canonical_witness :
    (findOrCreate ⟨[⟨AssemblyItem.Push 1, [], 0⟩, ⟨AssemblyItem.Push 2, [], 0⟩]⟩
        (AssemblyItem.Operation Inst.ADD) [0, 1] 0).1 =
      (findOrCreate ⟨[⟨AssemblyItem.Push 1, [], 0⟩, ⟨AssemblyItem.Push 2, [], 0⟩]⟩
        (AssemblyItem.Operation Inst.ADD) [1, 0] 0).1 ∧
    (findOrCreate (findOrCreate
        ⟨[⟨AssemblyItem.Push 1, [], 0⟩, ⟨AssemblyItem.Push 2, [], 0⟩]⟩
        (AssemblyItem.Operation Inst.ADD) [0, 1] 0).2
        (AssemblyItem.Operation Inst.ADD) [1, 0] 0).1 =
      (findOrCreate ⟨[⟨AssemblyItem.Push 1, [], 0⟩, ⟨AssemblyItem.Push 2, [], 0⟩]⟩
        (AssemblyItem.Operation Inst.ADD) [0, 1] 0).1 :=
  findOrCreate_canonical
    ⟨[⟨AssemblyItem.Push 1, [], 0⟩, ⟨AssemblyItem.Push 2, [], 0⟩]⟩
    (AssemblyItem.Operation Inst.ADD) [0, 1] [1, 0] 0
    (by decide) (by decide) (by decide)

/-! ### Initial-stack placeholders -/

theorem lookupA_setA_self (l : List (Int × Nat)) (h : Int) (v : Nat) :
    lookupA (setA l h v) h = some v := by
  induction l with
  | nil => simp [setA, lookupA]
  | cons p rest ih =>
    obtain ⟨k, w⟩ := p
    by_cases hk : k = h
    · simp [setA, hk, lookupA]
    · simp [setA, hk, lookupA, ih]

theorem lookupA_setA_ne (l : List (Int × Nat)) (h k : Int) (v : Nat)
    (hne : k ≠ h) : lookupA (setA l h v) k = lookupA l k := by
  induction l with
  | nil =>
    simp only [setA, lookupA]
    rw [if_neg (fun hh => hne hh.symm)]
  | cons p rest ih =>
    obtain ⟨k', w⟩ := p
    by_cases hk : k' = h
    · subst hk
      simp [setA, lookupA, hne, Ne.symm hne]
    · simp only [setA, if_neg hk, lookupA]
      by_cases hk2 : k' = k <;> simp [hk2, ih]

theorem lookupA_setA_isSome (l : List (Int × Nat)) (h k : Int) (v : Nat)
    (hs : (lookupA l k).isSome) : (lookupA (setA l h v) k).isSome := by
  by_cases hk : k = h
  · subst hk; rw [lookupA_setA_self]; rfl
  · rwa [lookupA_setA_ne l h k v hk]

/-- The stack-assignment invariant: every positive height up to the current
stack height has an assigned class. -/
def PositivesAssigned (s : EliminatorState) : Prop :=
  ∀ h : Int, 0 < h → h ≤ s.stackHeight → (lookupA s.stackElements h).isSome

/-- The ghost-log property: placeholders were only created for non-positive
heights. -/
def PlaceholdersNonPositive (s : EliminatorState) : Prop :=
  ∀ h ∈ s.placeholderHeights, h ≤ 0

theorem stackElement_of_isSome (s : EliminatorState) (h : Int)
    (hs : (lookupA s.stackElements h).isSome) : (stackElement s h).2 = s := by
  obtain ⟨id, hid⟩ := Option.isSome_iff_exists.1 hs
  simp [stackElement, hid]

theorem stackElement_stackElements_mono (s : EliminatorState) (h x : Int)
    (hs : (lookupA s.stackElements x).isSome) :
    (lookupA (stackElement s h).2.stackElements x).isSome := by
  simp only [stackElement, initialStackElement]
  cases hl : lookupA s.stackElements h with
  | some id => exact hs
  | none => exact lookupA_setA_isSome _ _ _ _ hs

theorem stackElement_assigned (s : EliminatorState) (h : Int) :
    (lookupA (stackElement s h).2.stackElements h).isSome := by
  simp only [stackElement, initialStackElement]
  cases hl : lookupA s.stackElements h with
  | some id => simp [hl]
  | none => rw [lookupA_setA_self]; rfl

theorem stackElement_ph_of_isSome (s : EliminatorState) (h : Int)
    (hs : (lookupA s.stackElements h).isSome) :
    (stackElement s h).2.placeholderHeights = s.placeholderHeights := by
  rw [stackElement_of_isSome s h hs]

theorem stackElement_ph_cases (s : EliminatorState) (h : Int) :
    (stackElement s h).2.placeholderHeights = s.placeholderHeights ∨
    (stackElement s h).2.placeholderHeights = s.placeholderHeights ++ [h] := by
  simp only [stackElement, initialStackElement]
  cases hl : lookupA s.stackElements h with
  | some id => exact Or.inl rfl
  | none => exact Or.inr rfl

theorem stackElement_preserves_assigned (s : EliminatorState) (h : Int)
    (hInv : PositivesAssigned s) : PositivesAssigned (stackElement s h).2 := by
  intro x hx hxle
  rw [stackElement_height] at hxle
  exact stackElement_stackElements_mono s h x (hInv x hx hxle)

theorem stackElement_ph_le (s : EliminatorState) (h : Int)
    (hInv : PositivesAssigned s) (hle : h ≤ s.stackHeight)
    (hQ : PlaceholdersNonPositive s) :
    PlaceholdersNonPositive (stackElement s h).2 := by
  intro x hx
  by_cases h0 : 0 < h
  · rw [stackElement_ph_of_isSome s h (hInv h h0 hle)] at hx
    exact hQ x hx
  · rcases stackElement_ph_cases s h with hc | hc <;> rw [hc] at hx
    · exact hQ x hx
    · rcases List.mem_append.1 hx with hm | hm
      · exact hQ x hm
      · cases List.mem_singleton.1 hm
        exact Int.not_lt.1 h0

theorem readArgs_preserves_assigned (n : Nat) :
    ∀ (s : EliminatorState) (h : Int), PositivesAssigned s →
      PositivesAssigned (readArgs s h n).2 := by
  induction n with
  | zero => intro s h hs; exact hs
  | succ n ih =>
    intro s h hs
    exact ih (stackElement s h).2 (h - 1)
      (stackElement_preserves_assigned s h hs)

theorem readArgs_stackElements_mono (n : Nat) :
    ∀ (s : EliminatorState) (h x : Int),
      (lookupA s.stackElements x).isSome →
      (lookupA (readArgs s h n).2.stackElements x).isSome := by
  induction n with
  | zero => intro s h x hs; exact hs
  | succ n ih =>
    intro s h x hs
    exact ih (stackElement s h).2 (h - 1) x
      (stackElement_stackElements_mono s h x hs)

theorem readArgs_ph_le (n : Nat) :
    ∀ (s : EliminatorState) (h : Int), PositivesAssigned s →
      h ≤ s.stackHeight → PlaceholdersNonPositive s →
      PlaceholdersNonPositive (readArgs s h n).2 := by
  induction n with
  | zero => intro s h _ _ hQ; exact hQ
  | succ n ih =>
    intro s h hInv hle hQ
    refine ih (stackElement s h).2 (h - 1)
      (stackElement_preserves_assigned s h hInv) ?_
      (stackElement_ph_le s h hInv hle hQ)
    rw [stackElement_height]
    omega

theorem loadFromStorage_stackEls (s : EliminatorState) (slot : Nat) :
    (loadFromStorage s slot).2.stackElements = s.stackElements := by
  simp only [loadFromStorage]
  split <;> rfl

theorem loadFromStorage_ph (s : EliminatorState) (slot : Nat) :
    (loadFromStorage s slot).2.placeholderHeights = s.placeholderHeights := by
  simp only [loadFromStorage]
  split <;> rfl

theorem loadFromMemory_stackEls (s : EliminatorState) (slot : Nat) :
    (loadFromMemory s slot).2.stackElements = s.stackElements := by
  simp only [loadFromMemory]
  split <;> rfl

theorem loadFromMemory_ph (s : EliminatorState) (slot : Nat) :
    (loadFromMemory s slot).2.placeholderHeights = s.placeholderHeights := by
  simp only [loadFromMemory]
  split <;> rfl

theorem feedPureOperation_preserves (s : EliminatorState)
    (item : AssemblyItem) (n : Nat) (hn : 1 ≤ n)
    (hInv : PositivesAssigned s) (hQ : PlaceholdersNonPositive s) :
    PositivesAssigned (feedPureOperation s item n) ∧
    PlaceholdersNonPositive (feedPureOperation s item n) := by
  constructor
  · intro x hx hxle
    simp only [feedPureOperation, setStackElement] at hxle ⊢
    by_cases hxeq : x = s.stackHeight - (n : Int) + 1
    · rw [hxeq, lookupA_setA_self]; rfl
    · rw [lookupA_setA_ne _ _ _ _ hxeq]
      have hxH : x ≤ s.stackHeight := by omega
      exact readArgs_stackElements_mono n s s.stackHeight x
        (hInv x hx (by omega))
  · intro x hx
    simp only [feedPureOperation, setStackElement] at hx
    exact readArgs_ph_le n s s.stackHeight hInv (le_refl _) hQ x hx

theorem feedImpureOperation_preserves (s : EliminatorState)
    (item : AssemblyItem) (n : Nat) (hn : 1 ≤ n)
    (hInv : PositivesAssigned s) (hQ : PlaceholdersNonPositive s) :
    PositivesAssigned (feedImpureOperation s item n) ∧
    PlaceholdersNonPositive (feedImpureOperation s item n) := by
  constructor
  · intro x hx hxle
    simp only [feedImpureOperation, setStackElement] at hxle ⊢
    by_cases hxeq : x = s.stackHeight - (n : Int) + 1
    · rw [hxeq, lookupA_setA_self]; rfl
    · rw [lookupA_setA_ne _ _ _ _ hxeq]
      exact readArgs_stackElements_mono n s s.stackHeight x
        (hInv x hx (by omega))
  · intro x hx
    simp only [feedImpureOperation, setStackElement] at hx
    exact readArgs_ph_le n s s.stackHeight hInv (le_refl _) hQ x hx

/-- Feeding any well-formed item preserves the stack-assignment invariant
and creates placeholders only for non-positive heights. -/
theorem feedItem_preserves (s : EliminatorState) (item : AssemblyItem)
    (hv : validItem item) (hInv : PositivesAssigned s)
    (hQ : PlaceholdersNonPositive s) :
    PositivesAssigned (feedItem s item) ∧
    PlaceholdersNonPositive (feedItem s item) := by
  cases item with
  | Push v =>
    constructor
    · intro x hx hxle
      simp only [feedItem, feedPush, setStackElement] at hxle ⊢
      by_cases hxeq : x = s.stackHeight + 1
      · rw [hxeq, lookupA_setA_self]; rfl
      · rw [lookupA_setA_ne _ _ _ _ hxeq]
        exact hInv x hx (by omega)
    · intro x hx
      exact hQ x hx
  | PushTag l =>
    constructor
    · intro x hx hxle
      simp only [feedItem, feedPush, setStackElement] at hxle ⊢
      by_cases hxeq : x = s.stackHeight + 1
      · rw [hxeq, lookupA_setA_self]; rfl
      · rw [lookupA_setA_ne _ _ _ _ hxeq]
        exact hInv x hx (by omega)
    · intro x hx
      exact hQ x hx
  | Tag l => exact ⟨hInv, hQ⟩
  | Operation inst =>
    cases inst with
    | DUP i =>
      obtain ⟨hi1, _⟩ := hv
      have hre : s.stackHeight - (i : Int) + 1 ≤ s.stackHeight := by
        omega
      constructor
      · intro x hx hxle
        simp only [feedItem, setStackElement] at hxle ⊢
        rw [stackElement_height] at hxle ⊢
        by_cases hxeq : x = s.stackHeight + 1
        · rw [hxeq, lookupA_setA_self]; rfl
        · rw [lookupA_setA_ne _ _ _ _ hxeq]
          exact stackElement_stackElements_mono s _ x
            (hInv x hx (by omega))
      · intro x hx
        simp only [feedItem, setStackElement] at hx
        exact stackElement_ph_le s _ hInv hre hQ x hx
    | SWAP i =>
      have hre : s.stackHeight - (i : Int) ≤ s.stackHeight := by omega
      constructor
      · intro x hx hxle
        simp only [feedItem, swapStackElements, setStackElement] at hxle ⊢
        rw [stackElement_height, stackElement_height] at hxle
        refine lookupA_setA_isSome _ _ _ _ (lookupA_setA_isSome _ _ _ _ ?_)
        exact stackElement_stackElements_mono _ _ x
          (stackElement_stackElements_mono s _ x (hInv x hx hxle))
      · intro x hx
        simp only [feedItem, swapStackElements, setStackElement] at hx
        refine stackElement_ph_le _ _
          (stackElement_preserves_assigned s _ hInv) ?_
          (stackElement_ph_le s _ hInv (le_refl _) hQ) x hx
        rw [stackElement_height]
        exact hre
    | POP =>
      constructor
      · intro x hx hxle
        exact hInv x hx (by
          simp only [feedItem] at hxle
          omega)
      · intro x hx
        exact hQ x hx
    | SLOAD =>
      constructor
      · intro x hx hxle
        simp only [feedItem, setStackElement] at hxle ⊢
        rw [loadFromStorage_height, stackElement_height] at hxle ⊢
        rw [loadFromStorage_stackEls]
        by_cases hxeq : x = s.stackHeight
        · rw [hxeq, lookupA_setA_self]; rfl
        · rw [lookupA_setA_ne _ _ _ _ hxeq]
          exact stackElement_stackElements_mono s _ x (hInv x hx hxle)
      · intro x hx
        simp only [feedItem, setStackElement] at hx
        rw [loadFromStorage_ph] at hx
        exact stackElement_ph_le s _ hInv (le_refl _) hQ x hx
    | MLOAD =>
      constructor
      · intro x hx hxle
        simp only [feedItem, setStackElement] at hxle ⊢
        rw [loadFromMemory_height, stackElement_height] at hxle ⊢
        rw [loadFromMemory_stackEls]
        by_cases hxeq : x = s.stackHeight
        · rw [hxeq, lookupA_setA_self]; rfl
        · rw [lookupA_setA_ne _ _ _ _ hxeq]
          exact stackElement_stackElements_mono s _ x (hInv x hx hxle)
      · intro x hx
        simp only [feedItem, setStackElement] at hx
        rw [loadFromMemory_ph] at hx
        exact stackElement_ph_le s _ hInv (le_refl _) hQ x hx
    | SSTORE =>
      constructor
      · intro x hx hxle
        simp only [feedItem, storeInStorage] at hxle ⊢
        rw [stackElement_height, stackElement_height] at hxle
        exact stackElement_stackElements_mono _ _ x
          (stackElement_stackElements_mono s _ x (hInv x hx (by omega)))
      · intro x hx
        simp only [feedItem, storeInStorage] at hx
        refine stackElement_ph_le _ _
          (stackElement_preserves_assigned s _ hInv) ?_
          (stackElement_ph_le s _ hInv (le_refl _) hQ) x hx
        rw [stackElement_height]
        omega
    | MSTORE =>
      constructor
      · intro x hx hxle
        simp only [feedItem, storeInMemory] at hxle ⊢
        rw [stackElement_height, stackElement_height] at hxle
        exact stackElement_stackElements_mono _ _ x
          (stackElement_stackElements_mono s _ x (hInv x hx (by omega)))
      · intro x hx
        simp only [feedItem, storeInMemory] at hx
        refine stackElement_ph_le _ _
          (stackElement_preserves_assigned s _ hInv) ?_
          (stackElement_ph_le s _ hInv (le_refl _) hQ) x hx
        rw [stackElement_height]
        omega
    | ADD => exact feedPureOperation_preserves s _ 2 (by omega) hInv hQ
    | MUL => exact feedPureOperation_preserves s _ 2 (by omega) hInv hQ
    | SUB => exact feedPureOperation_preserves s _ 2 (by omega) hInv hQ
    | DIV => exact feedPureOperation_preserves s _ 2 (by omega) hInv hQ
    | EQ => exact feedPureOperation_preserves s _ 2 (by omega) hInv hQ
    | AND => exact feedPureOperation_preserves s _ 2 (by omega) hInv hQ
    | OR => exact feedPureOperation_preserves s _ 2 (by omega) hInv hQ
    | XOR => exact feedPureOperation_preserves s _ 2 (by omega) hInv hQ
    | LT => exact feedPureOperation_preserves s _ 2 (by omega) hInv hQ
    | GT => exact feedPureOperation_preserves s _ 2 (by omega) hInv hQ
    | NOT => exact feedPureOperation_preserves s _ 1 (by omega) hInv hQ
    | BALANCE => exact feedImpureOperation_preserves s _ 1 (by omega) hInv hQ
    | CALL => exact feedImpureOperation_preserves s _ 7 (by omega) hInv hQ
    | STOP => exact ⟨hInv, hQ⟩
    | JUMP => exact ⟨hInv, hQ⟩
    | JUMPI => exact ⟨hInv, hQ⟩
    | JUMPDEST => exact ⟨hInv, hQ⟩
    | RETURN => exact ⟨hInv, hQ⟩
    | SUICIDE => exact ⟨hInv, hQ⟩
    | INVALID => exact ⟨hInv, hQ⟩

theorem feedRun_preserves (items : List AssemblyItem) :
    ∀ s : EliminatorState, (∀ it ∈ items, validItem it) →
      PositivesAssigned s → PlaceholdersNonPositive s →
      PositivesAssigned (feedRun s items) ∧
      PlaceholdersNonPositive (feedRun s items) := by
  induction items with
  | nil => intro s _ hInv hQ; exact ⟨hInv, hQ⟩
  | cons item rest ih =>
    intro s hv hInv hQ
    obtain ⟨hInv', hQ'⟩ := feedItem_preserves s item
      (hv item (List.mem_cons_self _ _)) hInv hQ
    exact ih (feedItem s item)
      (fun it hit => hv it (List.mem_cons_of_mem _ hit)) hInv' hQ'

/-- C9: reading a stack element at a height that was never assigned creates
an initial-stack placeholder class on demand, stores it at that height, and
every subsequent read of the height returns the same class id; over any
well-formed item stream fed from a fresh eliminator, placeholders are only
ever manufactured for non-positive heights. -/
theorem initialStackElement_on_demand :
    (∀ (s : EliminatorState) (h : Int),
      lookupA s.stackElements h = none →
      (stackElement s h).1 = (initialStackElement s h).1 ∧
      lookupA (stackElement s h).2.stackElements h =
        some (stackElement s h).1 ∧
      (stackElement s h).2.placeholderHeights =
        s.placeholderHeights ++ [h]) ∧
    (∀ (s : EliminatorState) (h : Int),
      (stackElement (stackElement s h).2 h).1 = (stackElement s h).1) ∧
    (∀ items : List AssemblyItem, (∀ it ∈ items, validItem it) →
      ∀ h ∈ (feedRun initialState items).placeholderHeights, h ≤ 0) := by
  refine ⟨?_, ?_, ?_⟩
  · intro s h hnone
    refine ⟨?_, ?_, ?_⟩
    · simp [stackElement, hnone]
    · simp [stackElement, hnone, lookupA_setA_self]
    · simp [stackElement, hnone, initialStackElement]
  · intro s h
    cases hl : lookupA s.stackElements h with
    | some id => simp [stackElement, hl]
    | none => simp [stackElement, hl, lookupA_setA_self]
  · intro items hv
    refine (feedRun_preserves items initialState hv ?_ ?_).2
    · intro h h0 hle
      exact absurd (lt_of_lt_of_le h0 hle) (by decide)
    · intro h hh
      exact absurd hh (List.not_mem_nil h)

/-- C9 witness: at a fresh eliminator, height `-1` is unassigned, reading
it manufactures the placeholder and stores it, and the placeholders created
by a concrete well-formed block (`SWAP1`) are non-positive. -/
theorem initialStackElement_on_demand_witness :
    ((stackElement initialState (-1)).1 =
        (initialStackElement initialState (-1)).1 ∧
      lookupA (stackElement initialState (-1)).2.stackElements (-1) =
        some (stackElement initialState (-1)).1 ∧
      (stackElement initialState (-1)).2.placeholderHeights =
        initialState.placeholderHeights ++ [(-1 : Int)]) ∧
    (0 : Int) ≤ 0 := by
  constructor
  · exact initialStackElement_on_demand.1 initialState (-1) (by decide)
  · exact initialStackElement_on_demand.2.2
      [AssemblyItem.Operation (Inst.SWAP 1)]
      (by intro it hit; simp at hit; subst hit; exact ⟨by decide, by decide⟩)
      0 (by decide)

end CSE
